import Mathlib

/-!
Verification development for the Falcon language runtime (nengine era).

The definitions below are a shallow embedding of the precompilation and
stepwise execution machinery of the engine:

* expression.cpp  -- Expression / UnaryExpression / BinaryExpression /
  TernaryExpression precompile and serialize, ExprNot, ExprAnd, ExprOr,
  ExprEEQ, ExprIIF, ExprPreInc, ExprPreDec and their gate steps;
* exprcompare.cpp -- the generic comparison step;
* pool.cpp        -- the bounded Pool free list;
* stmtglobal.cpp  -- the StmtGlobal statement step;
* codeframe.h     -- the code frame with its sequence id.

Machine integers of the source (int64 payloads of items) are modelled as
Int, with the increment and decrement arithmetic wrapped at 64 bits
(wrap64) where the source wraps; the C double payload (numeric) is
modelled as Rat, with the unit increments rounded onto the binary64 grid
(roundB64) where the source rounds; comparisons and equality involve no
rounding and are exact.  Heap instance pointers are modelled as Nat
identifiers.  Calls into a per-type Class handler are
modelled as observable events, since the handler bodies are outside the
embedded fragment.
-/

namespace Falcon

/-- Tagged runtime value, following the Item type tags used by the switch
dispatch in expression.cpp (FLC_ITEM_NIL, FLC_ITEM_BOOL, FLC_ITEM_INT,
FLC_ITEM_NUM, FLC_ITEM_FUNC, FLC_ITEM_METHOD, FLC_ITEM_DEEP,
FLC_ITEM_USER).  Instance items carry the handler class and the instance
pointer, both modelled as Nat identifiers. -/
inductive Item where
  | nil : Item
  | boolean (b : Bool) : Item
  | integer (v : Int) : Item
  | numeric (v : Rat) : Item
  | func (id : Nat) : Item
  | method (id : Nat) : Item
  | deepInst (cls inst : Nat) : Item
  | userInst (cls inst : Nat) : Item
deriving DecidableEq, Repr

/-- The numeric type tag of an item (the discriminant the source switches
read with item.type()).  The concrete numbers only matter up to
distinctness. -/
def Item.typeId : Item → Nat
  | .nil => 0
  | .boolean _ => 1
  | .integer _ => 2
  | .numeric _ => 3
  | .func _ => 4
  | .method _ => 5
  | .deepInst _ _ => 6
  | .userInst _ _ => 7

/-- Modelled from the spec: item.h is not under src/, so the truth-value
test Item::isTrue used by the logic steps is modelled here.  Nil is false,
booleans are themselves, numbers are true when nonzero, and every other
item (functions, methods, instances) counts as true. -/
def Item.isTrue : Item → Bool
  | .nil => false
  | .boolean b => b
  | .integer v => v != 0
  | .numeric v => v != 0
  | _ => true

/-- The atomic execution steps emitted by precompilation for the embedded
expression fragment.  Gate steps carry the absolute sequence id recorded
into them at precompilation time (m_shortCircuitSeqId, m_falseSeqId,
m_endSeqId in expression.cpp). -/
inductive Step where
  | pushLit (v : Item) : Step
  | notStep : Step
  | eeqStep : Step
  | andStep : Step
  | orStep : Step
  | andGate (target : Nat) : Step
  | orGate (target : Nat) : Step
  | iifStep (falseSeqId : Nat) : Step
  | iifGate (endSeqId : Nat) : Step
deriving DecidableEq, Repr

/-- Expression trees of the embedded fragment.  A lit node stands for any
leaf expression whose single step pushes its value (the base
Expression::precompile pushes exactly one step).  ExprNot and ExprEEQ use
the inherited UnaryExpression / BinaryExpression precompile; ExprAnd,
ExprOr and ExprIIF override precompile and insert gate steps. -/
inductive Expr where
  | lit (v : Item) : Expr
  | enot (first : Expr) : Expr
  | eeq (first second : Expr) : Expr
  | eand (first second : Expr) : Expr
  | eor (first second : Expr) : Expr
  | iif (first second third : Expr) : Expr
deriving DecidableEq, Repr

/-- Number of steps that precompiling an expression appends to the PCode. -/
def csize : Expr → Nat
  | .lit _ => 1
  | .enot a => csize a + 1
  | .eeq a b => csize a + csize b + 1
  | .eand a b => csize a + csize b + 2
  | .eor a b => csize a + csize b + 2
  | .iif a b c => csize a + csize b + csize c + 2

/-- The steps appended by Expression::precompile when the PCode already
holds ofs steps (pcode->size() = ofs at entry).  Each equation transcribes
the corresponding precompile override in expression.cpp; the gate targets
are the values of pcode->size() at the point they are assigned:

* ExprAnd / ExprOr: first, gate, second, self; the short circuit seq id is
  the size after pushing self.
* ExprIIF: first, self, second, gate, third; m_falseSeqId is the size
  after pushing the gate, m_endSeqId is the size after the third child.
* the unary and binary base precompile: children in order, then self. -/
def codeOf : Expr → Nat → List Step
  | .lit v, _ => [.pushLit v]
  | .enot a, ofs => codeOf a ofs ++ [.notStep]
  | .eeq a b, ofs => codeOf a ofs ++ codeOf b (ofs + csize a) ++ [.eeqStep]
  | .eand a b, ofs =>
      codeOf a ofs ++ [.andGate (ofs + csize a + 1 + csize b + 1)]
        ++ codeOf b (ofs + csize a + 1) ++ [.andStep]
  | .eor a b, ofs =>
      codeOf a ofs ++ [.orGate (ofs + csize a + 1 + csize b + 1)]
        ++ codeOf b (ofs + csize a + 1) ++ [.orStep]
  | .iif a b c, ofs =>
      codeOf a ofs ++ [.iifStep (ofs + csize a + 1 + csize b + 1)]
        ++ codeOf b (ofs + csize a + 1)
        ++ [.iifGate (ofs + csize a + 1 + csize b + 1 + csize c)]
        ++ codeOf c (ofs + csize a + 1 + csize b + 1)

theorem codeOf_length (e : Expr) : ∀ ofs, (codeOf e ofs).length = csize e := by
  induction e with
  | lit v => intro ofs; simp [codeOf, csize]
  | enot a ih => intro ofs; simp [codeOf, csize, ih]
  | eeq a b iha ihb => intro ofs; simp [codeOf, csize, iha, ihb]; omega
  | eand a b iha ihb => intro ofs; simp [codeOf, csize, iha, ihb]; omega
  | eor a b iha ihb => intro ofs; simp [codeOf, csize, iha, ihb]; omega
  | iif a b c iha ihb ihc =>
      intro ofs; simp [codeOf, csize, iha, ihb, ihc]; omega

/-- ExprNot::apply_ replaces the top operand in place by the boolean
negation of its truth value (operand.setBoolean( ! operand.isTrue() )). -/
def exprNotItem (operand : Item) : Item := .boolean (!operand.isTrue)

/-- ExprAnd::apply_ / ExprOr::apply_ booleanize the operand left on top of
the stack (operand.setBoolean( operand.isTrue() )). -/
def booleanizeItem (operand : Item) : Item := .boolean operand.isTrue

/-- ExprEEQ::apply_ computes the exact-equality result written into op1:
same-typed scalars compare by value, deep and user instance pairs compare
by the instance pointer (asDeepInst / asUserInst equality), every other
pairing takes the default branch and yields boolean false. -/
def eeqItem : Item → Item → Item
  | .nil, .nil => .boolean true
  | .boolean a, .boolean b => .boolean (a == b)
  | .integer a, .integer b => .boolean (a == b)
  | .numeric a, .numeric b => .boolean (a == b)
  | .deepInst _ i1, .deepInst _ i2 => .boolean (i1 == i2)
  | .userInst _ i1, .userInst _ i2 => .boolean (i1 == i2)
  | _, _ => .boolean false

/-- The result of one VM iteration on the current frame: the new sequence
id together with the new data stack.  The argument next is the already
incremented sequence id the loop hands to the step; gate steps overwrite
it with their recorded target.  The data stack is the list of items, top
first.  Stack underflow is unreachable for code produced by codeOf from an
empty stack; those branches leave the state unchanged. -/
def applyStep (s : Step) (next : Nat) (stack : List Item) : Nat × List Item :=
  match s, stack with
  | .pushLit v, st => (next, v :: st)
  | .notStep, it :: st => (next, exprNotItem it :: st)
  | .notStep, [] => (next, [])
  | .eeqStep, op2 :: op1 :: st => (next, eeqItem op1 op2 :: st)
  | .eeqStep, st => (next, st)
  | .andStep, it :: st => (next, booleanizeItem it :: st)
  | .andStep, [] => (next, [])
  | .orStep, it :: st => (next, booleanizeItem it :: st)
  | .orStep, [] => (next, [])
  | .andGate t, it :: st =>
      if it.isTrue then (next, st) else (t, Item.boolean false :: st)
  | .andGate _, [] => (next, [])
  | .orGate t, it :: st =>
      if it.isTrue then (t, Item.boolean true :: st) else (next, st)
  | .orGate _, [] => (next, [])
  | .iifStep fId, cond :: st =>
      (if cond.isTrue then next else fId, st)
  | .iifStep _, [] => (next, [])
  | .iifGate eId, st => (eId, st)

/-- Modelled from the spec: pcode.cpp (the PCode run loop) is not under
src/.  Per the spec the context repeatedly fetches the step indexed by the
current frame sequence id while it is below the sequence size, increments
the sequence id and applies the step; the frame completes when the
sequence id reaches the end. -/
def stepOnce (code : List Step) (s : Nat × List Item) : Option (Nat × List Item) :=
  match code[s.1]? with
  | some stp => some (applyStep stp (s.1 + 1) s.2)
  | none => none

/-- Reflexive-transitive execution of the VM loop, recording the list of
sequence ids of the steps actually executed. -/
inductive Exec (code : List Step) : Nat × List Item → List Nat → Nat × List Item → Prop where
  | refl (s : Nat × List Item) : Exec code s [] s
  | step {s s' s'' : Nat × List Item} {vs : List Nat} :
      stepOnce code s = some s' → Exec code s' vs s'' → Exec code s (s.1 :: vs) s''

theorem Exec.trans {code : List Step} {s t u : Nat × List Item}
    {vs vs' : List Nat} (h1 : Exec code s vs t) (h2 : Exec code t vs' u) :
    Exec code s (vs ++ vs') u := by
  induction h1 with
  | refl s => simpa using h2
  | step h e ih => exact Exec.step h (ih h2)

theorem Exec.single {code : List Step} {s s' : Nat × List Item}
    (h : stepOnce code s = some s') : Exec code s [s.1] s' :=
  Exec.step h (Exec.refl s')

theorem code_get_at (pre : List Step) (x : Step) (post : List Step) :
    (pre ++ x :: post)[pre.length]? = some x := by
  rw [List.getElem?_append_right (by omega)]
  simp

/-- The value computed by an expression of the fragment, matching the
per-step semantics: and / or booleanize (or short circuit to a fresh
boolean), the ternary conditional passes the chosen branch value through
unchanged. -/
def evalE : Expr → Item
  | .lit v => v
  | .enot a => exprNotItem (evalE a)
  | .eeq a b => eeqItem (evalE a) (evalE b)
  | .eand a b =>
      if (evalE a).isTrue then booleanizeItem (evalE b) else .boolean false
  | .eor a b =>
      if (evalE a).isTrue then .boolean true else booleanizeItem (evalE b)
  | .iif a b c => if (evalE a).isTrue then evalE b else evalE c

end Falcon

namespace Falcon


theorem code_get_of_eq (code pre post : List Step) (x : Step) (n : Nat)
    (h : code = pre ++ x :: post) (hn : n = pre.length) : code[n]? = some x := by
  rw [h, hn]; exact code_get_at pre x post

/-- Segment correctness of precompiled code: when the code stack holds the
steps precompiled for e at offset pre.length, running the VM loop from
that offset pushes exactly the value of e on the data stack, ends at the
first sequence id after the segment, and executes only steps whose
sequence ids lie inside the segment. -/
theorem codeOf_exec (e : Expr) :
    ∀ (code pre post : List Step) (st : List Item),
      code = pre ++ codeOf e pre.length ++ post →
      ∃ vs, Exec code (pre.length, st) vs (pre.length + csize e, evalE e :: st)
        ∧ ∀ i ∈ vs, pre.length ≤ i ∧ i < pre.length + csize e := by
  induction e with
  | lit v =>
      intro code pre post st hcode
      refine ⟨[pre.length], ?_, ?_⟩
      · refine Exec.single ?_
        have hget : code[pre.length]? = some (Step.pushLit v) :=
          code_get_of_eq code pre post (Step.pushLit v) pre.length
            (by rw [hcode]; simp [codeOf]) rfl
        simp [stepOnce, hget, applyStep, csize, evalE]
      · intro i hi
        simp only [List.mem_singleton] at hi
        subst hi; constructor <;> simp [csize]
  | enot a ih =>
      intro code pre post st hcode
      obtain ⟨vs₁, hrun₁, hb₁⟩ := ih code pre (Step.notStep :: post) st
        (by rw [hcode]; simp [codeOf, List.append_assoc])
      have hget : code[pre.length + csize a]? = some Step.notStep :=
        code_get_of_eq code (pre ++ codeOf a pre.length) post Step.notStep _
          (by rw [hcode]; simp [codeOf, List.append_assoc])
          (by simp [codeOf_length] <;> omega)
      have hstep : stepOnce code (pre.length + csize a, evalE a :: st)
          = some (pre.length + csize a + 1, exprNotItem (evalE a) :: st) := by
        simp [stepOnce, hget, applyStep]
      refine ⟨vs₁ ++ [pre.length + csize a], ?_, ?_⟩
      · have h12 := Exec.trans hrun₁ (Exec.single hstep)
        simpa [csize, evalE, Nat.add_assoc] using h12
      · intro i hi
        rcases List.mem_append.1 hi with h | h
        · have := hb₁ i h; simp [csize] <;> omega
        · simp only [List.mem_singleton] at h; subst h
          simp [csize] <;> omega
  | eeq a b iha ihb =>
      intro code pre post st hcode
      obtain ⟨vs₁, hrun₁, hb₁⟩ := iha code pre
        (codeOf b (pre.length + csize a) ++ Step.eeqStep :: post) st
        (by rw [hcode]; simp [codeOf, List.append_assoc])
      have hlen₂ : (pre ++ codeOf a pre.length).length = pre.length + csize a := by
        simp [codeOf_length] <;> omega
      obtain ⟨vs₂, hrun₂, hb₂⟩ := ihb code (pre ++ codeOf a pre.length)
        (Step.eeqStep :: post) (evalE a :: st)
        (by rw [hlen₂, hcode]; simp [codeOf, List.append_assoc])
      rw [hlen₂] at hrun₂ hb₂
      have hget : code[pre.length + csize a + csize b]? = some Step.eeqStep :=
        code_get_of_eq code
          (pre ++ codeOf a pre.length ++ codeOf b (pre.length + csize a))
          post Step.eeqStep _
          (by rw [hcode]; simp [codeOf, List.append_assoc])
          (by simp [codeOf_length] <;> omega)
      have hstep : stepOnce code
          (pre.length + csize a + csize b, evalE b :: evalE a :: st)
          = some (pre.length + csize a + csize b + 1,
              eeqItem (evalE a) (evalE b) :: st) := by
        simp [stepOnce, hget, applyStep]
      refine ⟨vs₁ ++ (vs₂ ++ [pre.length + csize a + csize b]), ?_, ?_⟩
      · have h2 := Exec.trans hrun₂ (Exec.single hstep)
        have h12 := Exec.trans hrun₁ h2
        simpa [csize, evalE, Nat.add_assoc] using h12
      · intro i hi
        rcases List.mem_append.1 hi with h | h
        · have := hb₁ i h; simp [csize] <;> omega
        · rcases List.mem_append.1 h with h | h
          · have := hb₂ i h; simp [csize] <;> omega
          · simp only [List.mem_singleton] at h; subst h
            simp [csize] <;> omega
  | eand a b iha ihb =>
      intro code pre post st hcode
      obtain ⟨vs₁, hrun₁, hb₁⟩ := iha code pre
        (Step.andGate (pre.length + csize a + 1 + csize b + 1)
          :: (codeOf b (pre.length + csize a + 1) ++ Step.andStep :: post)) st
        (by rw [hcode]; simp [codeOf, List.append_assoc])
      have hgget : code[pre.length + csize a]?
          = some (Step.andGate (pre.length + csize a + 1 + csize b + 1)) :=
        code_get_of_eq code (pre ++ codeOf a pre.length)
          (codeOf b (pre.length + csize a + 1) ++ Step.andStep :: post)
          (Step.andGate (pre.length + csize a + 1 + csize b + 1)) _
          (by rw [hcode]; simp [codeOf, List.append_assoc])
          (by simp [codeOf_length] <;> omega)
      by_cases hat : (evalE a).isTrue
      · -- first operand true: the gate pops it, the second expression runs,
        -- ExprAnd::apply_ booleanizes its value
        have hgstep : stepOnce code (pre.length + csize a, evalE a :: st)
            = some (pre.length + csize a + 1, st) := by
          simp [stepOnce, hgget, applyStep, hat]
        have hlen₂ : (pre ++ codeOf a pre.length
            ++ [Step.andGate (pre.length + csize a + 1 + csize b + 1)]).length
            = pre.length + csize a + 1 := by
          simp [codeOf_length] <;> omega
        obtain ⟨vs₂, hrun₂, hb₂⟩ := ihb code
          (pre ++ codeOf a pre.length
            ++ [Step.andGate (pre.length + csize a + 1 + csize b + 1)])
          (Step.andStep :: post) st
          (by rw [hlen₂, hcode]; simp [codeOf, List.append_assoc])
        rw [hlen₂] at hrun₂ hb₂
        have hsget : code[pre.length + csize a + 1 + csize b]? = some Step.andStep :=
          code_get_of_eq code
            (pre ++ codeOf a pre.length
              ++ [Step.andGate (pre.length + csize a + 1 + csize b + 1)]
              ++ codeOf b (pre.length + csize a + 1))
            post Step.andStep _
            (by rw [hcode]; simp [codeOf, List.append_assoc])
            (by simp [codeOf_length] <;> omega)
        have hsstep : stepOnce code
            (pre.length + csize a + 1 + csize b, evalE b :: st)
            = some (pre.length + csize a + 1 + csize b + 1,
                booleanizeItem (evalE b) :: st) := by
          simp [stepOnce, hsget, applyStep]
        refine ⟨vs₁ ++ ([pre.length + csize a] ++ (vs₂
            ++ [pre.length + csize a + 1 + csize b])), ?_, ?_⟩
        · have h3 := Exec.trans hrun₂ (Exec.single hsstep)
          have h23 := Exec.trans (Exec.single hgstep) h3
          have h123 := Exec.trans hrun₁ h23
          have hfin : pre.length + csize a + 1 + csize b + 1
              = pre.length + csize (Expr.eand a b) := by simp [csize] <;> omega
          rw [hfin] at h123
          simpa [evalE, hat] using h123
        · intro i hi
          simp only [List.mem_append, List.mem_singleton] at hi
          rcases hi with h | h | h | h
          · have := hb₁ i h; simp [csize] <;> omega
          · subst h; simp [csize] <;> omega
          · have := hb₂ i h; simp [csize] <;> omega
          · subst h; simp [csize] <;> omega
      · -- first operand false: the gate writes boolean false over it and
        -- jumps the sequence id to the recorded short-circuit target
        have hgstep : stepOnce code (pre.length + csize a, evalE a :: st)
            = some (pre.length + csize a + 1 + csize b + 1,
                Item.boolean false :: st) := by
          simp [stepOnce, hgget, applyStep, hat]
        refine ⟨vs₁ ++ [pre.length + csize a], ?_, ?_⟩
        · have h12 := Exec.trans hrun₁ (Exec.single hgstep)
          have hfin : pre.length + csize a + 1 + csize b + 1
              = pre.length + csize (Expr.eand a b) := by simp [csize] <;> omega
          rw [hfin] at h12
          simpa [evalE, hat] using h12
        · intro i hi
          simp only [List.mem_append, List.mem_singleton] at hi
          rcases hi with h | h
          · have := hb₁ i h; simp [csize] <;> omega
          · subst h; simp [csize] <;> omega
  | eor a b iha ihb =>
      intro code pre post st hcode
      obtain ⟨vs₁, hrun₁, hb₁⟩ := iha code pre
        (Step.orGate (pre.length + csize a + 1 + csize b + 1)
          :: (codeOf b (pre.length + csize a + 1) ++ Step.orStep :: post)) st
        (by rw [hcode]; simp [codeOf, List.append_assoc])
      have hgget : code[pre.length + csize a]?
          = some (Step.orGate (pre.length + csize a + 1 + csize b + 1)) :=
        code_get_of_eq code (pre ++ codeOf a pre.length)
          (codeOf b (pre.length + csize a + 1) ++ Step.orStep :: post)
          (Step.orGate (pre.length + csize a + 1 + csize b + 1)) _
          (by rw [hcode]; simp [codeOf, List.append_assoc])
          (by simp [codeOf_length] <;> omega)
      by_cases hat : (evalE a).isTrue
      · -- first operand true: short circuit to the recorded target
        have hgstep : stepOnce code (pre.length + csize a, evalE a :: st)
            = some (pre.length + csize a + 1 + csize b + 1,
                Item.boolean true :: st) := by
          simp [stepOnce, hgget, applyStep, hat]
        refine ⟨vs₁ ++ [pre.length + csize a], ?_, ?_⟩
        · have h12 := Exec.trans hrun₁ (Exec.single hgstep)
          have hfin : pre.length + csize a + 1 + csize b + 1
              = pre.length + csize (Expr.eor a b) := by simp [csize] <;> omega
          rw [hfin] at h12
          simpa [evalE, hat] using h12
        · intro i hi
          simp only [List.mem_append, List.mem_singleton] at hi
          rcases hi with h | h
          · have := hb₁ i h; simp [csize] <;> omega
          · subst h; simp [csize] <;> omega
      · -- first operand false: the gate pops it and the second expression runs
        have hgstep : stepOnce code (pre.length + csize a, evalE a :: st)
            = some (pre.length + csize a + 1, st) := by
          simp [stepOnce, hgget, applyStep, hat]
        have hlen₂ : (pre ++ codeOf a pre.length
            ++ [Step.orGate (pre.length + csize a + 1 + csize b + 1)]).length
            = pre.length + csize a + 1 := by
          simp [codeOf_length] <;> omega
        obtain ⟨vs₂, hrun₂, hb₂⟩ := ihb code
          (pre ++ codeOf a pre.length
            ++ [Step.orGate (pre.length + csize a + 1 + csize b + 1)])
          (Step.orStep :: post) st
          (by rw [hlen₂, hcode]; simp [codeOf, List.append_assoc])
        rw [hlen₂] at hrun₂ hb₂
        have hsget : code[pre.length + csize a + 1 + csize b]? = some Step.orStep :=
          code_get_of_eq code
            (pre ++ codeOf a pre.length
              ++ [Step.orGate (pre.length + csize a + 1 + csize b + 1)]
              ++ codeOf b (pre.length + csize a + 1))
            post Step.orStep _
            (by rw [hcode]; simp [codeOf, List.append_assoc])
            (by simp [codeOf_length] <;> omega)
        have hsstep : stepOnce code
            (pre.length + csize a + 1 + csize b, evalE b :: st)
            = some (pre.length + csize a + 1 + csize b + 1,
                booleanizeItem (evalE b) :: st) := by
          simp [stepOnce, hsget, applyStep]
        refine ⟨vs₁ ++ ([pre.length + csize a] ++ (vs₂
            ++ [pre.length + csize a + 1 + csize b])), ?_, ?_⟩
        · have h3 := Exec.trans hrun₂ (Exec.single hsstep)
          have h23 := Exec.trans (Exec.single hgstep) h3
          have h123 := Exec.trans hrun₁ h23
          have hfin : pre.length + csize a + 1 + csize b + 1
              = pre.length + csize (Expr.eor a b) := by simp [csize] <;> omega
          rw [hfin] at h123
          simpa [evalE, hat] using h123
        · intro i hi
          simp only [List.mem_append, List.mem_singleton] at hi
          rcases hi with h | h | h | h
          · have := hb₁ i h; simp [csize] <;> omega
          · subst h; simp [csize] <;> omega
          · have := hb₂ i h; simp [csize] <;> omega
          · subst h; simp [csize] <;> omega
  | iif a b c iha ihb ihc =>
      intro code pre post st hcode
      obtain ⟨vs₁, hrun₁, hb₁⟩ := iha code pre
        (Step.iifStep (pre.length + csize a + 1 + csize b + 1)
          :: (codeOf b (pre.length + csize a + 1)
            ++ Step.iifGate (pre.length + csize a + 1 + csize b + 1 + csize c)
            :: codeOf c (pre.length + csize a + 1 + csize b + 1) ++ post)) st
        (by rw [hcode]; simp [codeOf, List.append_assoc])
      have hgget : code[pre.length + csize a]?
          = some (Step.iifStep (pre.length + csize a + 1 + csize b + 1)) :=
        code_get_of_eq code (pre ++ codeOf a pre.length)
          (codeOf b (pre.length + csize a + 1)
            ++ Step.iifGate (pre.length + csize a + 1 + csize b + 1 + csize c)
            :: codeOf c (pre.length + csize a + 1 + csize b + 1) ++ post)
          (Step.iifStep (pre.length + csize a + 1 + csize b + 1)) _
          (by rw [hcode]; simp [codeOf, List.append_assoc])
          (by simp [codeOf_length] <;> omega)
      by_cases hat : (evalE a).isTrue
      · -- condition true: pop it, run the second child, then its trailing
        -- gate jumps to the end of the whole sequence
        have hgstep : stepOnce code (pre.length + csize a, evalE a :: st)
            = some (pre.length + csize a + 1, st) := by
          simp [stepOnce, hgget, applyStep, hat]
        have hlen₂ : (pre ++ codeOf a pre.length
            ++ [Step.iifStep (pre.length + csize a + 1 + csize b + 1)]).length
            = pre.length + csize a + 1 := by
          simp [codeOf_length] <;> omega
        obtain ⟨vs₂, hrun₂, hb₂⟩ := ihb code
          (pre ++ codeOf a pre.length
            ++ [Step.iifStep (pre.length + csize a + 1 + csize b + 1)])
          (Step.iifGate (pre.length + csize a + 1 + csize b + 1 + csize c)
            :: codeOf c (pre.length + csize a + 1 + csize b + 1) ++ post) st
          (by rw [hlen₂, hcode]; simp [codeOf, List.append_assoc])
        rw [hlen₂] at hrun₂ hb₂
        have hsget : code[pre.length + csize a + 1 + csize b]?
            = some (Step.iifGate (pre.length + csize a + 1 + csize b + 1 + csize c)) :=
          code_get_of_eq code
            (pre ++ codeOf a pre.length
              ++ [Step.iifStep (pre.length + csize a + 1 + csize b + 1)]
              ++ codeOf b (pre.length + csize a + 1))
            (codeOf c (pre.length + csize a + 1 + csize b + 1) ++ post)
            (Step.iifGate (pre.length + csize a + 1 + csize b + 1 + csize c)) _
            (by rw [hcode]; simp [codeOf, List.append_assoc])
            (by simp [codeOf_length] <;> omega)
        have hsstep : stepOnce code
            (pre.length + csize a + 1 + csize b, evalE b :: st)
            = some (pre.length + csize a + 1 + csize b + 1 + csize c,
                evalE b :: st) := by
          simp [stepOnce, hsget, applyStep]
        refine ⟨vs₁ ++ ([pre.length + csize a] ++ (vs₂
            ++ [pre.length + csize a + 1 + csize b])), ?_, ?_⟩
        · have h3 := Exec.trans hrun₂ (Exec.single hsstep)
          have h23 := Exec.trans (Exec.single hgstep) h3
          have h123 := Exec.trans hrun₁ h23
          have hfin : pre.length + csize a + 1 + csize b + 1 + csize c
              = pre.length + csize (Expr.iif a b c) := by simp [csize] <;> omega
          rw [hfin] at h123
          simpa [evalE, hat] using h123
        · intro i hi
          simp only [List.mem_append, List.mem_singleton] at hi
          rcases hi with h | h | h | h
          · have := hb₁ i h; simp [csize] <;> omega
          · subst h; simp [csize] <;> omega
          · have := hb₂ i h; simp [csize] <;> omega
          · subst h; simp [csize] <;> omega
      · -- condition false: ExprIIF::apply_ pops it and jumps the sequence
        -- id to the precomputed start of the third child
        have hgstep : stepOnce code (pre.length + csize a, evalE a :: st)
            = some (pre.length + csize a + 1 + csize b + 1, st) := by
          simp [stepOnce, hgget, applyStep, hat]
        have hlen₃ : (pre ++ codeOf a pre.length
            ++ [Step.iifStep (pre.length + csize a + 1 + csize b + 1)]
            ++ codeOf b (pre.length + csize a + 1)
            ++ [Step.iifGate (pre.length + csize a + 1 + csize b + 1 + csize c)]).length
            = pre.length + csize a + 1 + csize b + 1 := by
          simp [codeOf_length] <;> omega
        obtain ⟨vs₃, hrun₃, hb₃⟩ := ihc code
          (pre ++ codeOf a pre.length
            ++ [Step.iifStep (pre.length + csize a + 1 + csize b + 1)]
            ++ codeOf b (pre.length + csize a + 1)
            ++ [Step.iifGate (pre.length + csize a + 1 + csize b + 1 + csize c)])
          post st
          (by rw [hlen₃, hcode]; simp [codeOf, List.append_assoc])
        rw [hlen₃] at hrun₃ hb₃
        refine ⟨vs₁ ++ ([pre.length + csize a] ++ vs₃), ?_, ?_⟩
        · have h23 := Exec.trans (Exec.single hgstep) hrun₃
          have h123 := Exec.trans hrun₁ h23
          have hfin : pre.length + csize a + 1 + csize b + 1 + csize c
              = pre.length + csize (Expr.iif a b c) := by simp [csize] <;> omega
          rw [hfin] at h123
          simpa [evalE, hat] using h123
        · intro i hi
          simp only [List.mem_append, List.mem_singleton] at hi
          rcases hi with h | h | h
          · have := hb₁ i h; simp [csize] <;> omega
          · subst h; simp [csize] <;> omega
          · have := hb₃ i h; simp [csize] <;> omega

/-- C1: executing the precompiled sequence of a and b with a false first
operand never executes any step of b: the gate jumps the sequence id to
the short-circuit target and exactly one value, the boolean false, is left
on the data stack at completion; with a true first operand the gate pops
the first value, b runs, and exactly one boolean value remains. -/
theorem exprAnd_gate_short_circuit (a b : Expr) :
    ((evalE a).isTrue = false →
      ∃ vs, Exec (codeOf (Expr.eand a b) 0) (0, []) vs
          ((codeOf (Expr.eand a b) 0).length, [Item.boolean false])
        ∧ ∀ i ∈ vs, ¬ (csize a + 1 ≤ i ∧ i < csize a + 1 + csize b))
  ∧ ((evalE a).isTrue = true →
      ∃ vs, Exec (codeOf (Expr.eand a b) 0) (0, []) vs
          ((codeOf (Expr.eand a b) 0).length,
            [Item.boolean (evalE b).isTrue])) := by
  have hlen : (codeOf (Expr.eand a b) 0).length = csize a + csize b + 2 := by
    simp [codeOf_length, csize]
  constructor
  · intro hat
    obtain ⟨vs₁, hrun₁, hb₁⟩ := codeOf_exec a (codeOf (Expr.eand a b) 0) []
      (Step.andGate (csize a + 1 + csize b + 1)
        :: (codeOf b (csize a + 1) ++ [Step.andStep])) []
      (by simp [codeOf, List.append_assoc])
    simp only [List.length_nil, Nat.zero_add] at hrun₁ hb₁
    have hgget : (codeOf (Expr.eand a b) 0)[csize a]?
        = some (Step.andGate (csize a + 1 + csize b + 1)) :=
      code_get_of_eq _ (codeOf a 0) (codeOf b (csize a + 1) ++ [Step.andStep])
        (Step.andGate (csize a + 1 + csize b + 1)) _
        (by simp [codeOf, List.append_assoc]) (by simp [codeOf_length])
    have hgstep : stepOnce (codeOf (Expr.eand a b) 0)
        (csize a, evalE a :: []) = some (csize a + 1 + csize b + 1,
          Item.boolean false :: []) := by
      simp [stepOnce, hgget, applyStep, hat]
    refine ⟨vs₁ ++ [csize a], ?_, ?_⟩
    · have h12 := Exec.trans hrun₁ (Exec.single hgstep)
      have hfin : csize a + 1 + csize b + 1
          = (codeOf (Expr.eand a b) 0).length := by rw [hlen]; omega
      rw [hfin] at h12
      exact h12
    · intro i hi
      simp only [List.mem_append, List.mem_singleton] at hi
      rcases hi with h | h
      · have := hb₁ i h; omega
      · subst h; omega
  · intro hat
    obtain ⟨vs, hrun, _⟩ := codeOf_exec (Expr.eand a b)
      (codeOf (Expr.eand a b) 0) [] [] [] (by simp)
    simp only [List.length_nil, Nat.zero_add] at hrun
    refine ⟨vs, ?_⟩
    have hfin : csize (Expr.eand a b) = (codeOf (Expr.eand a b) 0).length := by
      simp [codeOf_length]
    rw [hfin] at hrun
    simpa [evalE, hat, booleanizeItem] using hrun

/-- Closed instance of the short-circuit theorem at a false literal and a
nil literal, with the hypothesis discharged concretely. -/
theorem exprAnd_gate_short_circuit_witness :
    (evalE (Expr.lit (Item.boolean false))).isTrue = false ∧
    ∃ vs, Exec (codeOf (Expr.eand (Expr.lit (Item.boolean false))
          (Expr.lit Item.nil)) 0) (0, []) vs
        ((codeOf (Expr.eand (Expr.lit (Item.boolean false))
          (Expr.lit Item.nil)) 0).length, [Item.boolean false])
      ∧ ∀ i ∈ vs, ¬ (csize (Expr.lit (Item.boolean false)) + 1 ≤ i
          ∧ i < csize (Expr.lit (Item.boolean false)) + 1
              + csize (Expr.lit Item.nil)) :=
  ⟨rfl, (exprAnd_gate_short_circuit (Expr.lit (Item.boolean false))
      (Expr.lit Item.nil)).1 rfl⟩

/-- C3: the precompiled ternary conditional pops the condition; when it is
false the sequence id jumps to the precomputed start of the third child
and no step of the second child runs, when it is true the second child
runs, its trailing gate jumps to the precomputed end of the sequence and
no step of the third child runs; either way exactly the selected branch
value remains on the data stack at completion. -/
theorem exprIIF_branch_selection (c t f : Expr) :
    ((evalE c).isTrue = true →
      ∃ vs, Exec (codeOf (Expr.iif c t f) 0) (0, []) vs
          ((codeOf (Expr.iif c t f) 0).length, [evalE t])
        ∧ ∀ i ∈ vs, ¬ (csize c + 1 + csize t + 1 ≤ i
            ∧ i < csize c + 1 + csize t + 1 + csize f))
  ∧ ((evalE c).isTrue = false →
      ∃ vs, Exec (codeOf (Expr.iif c t f) 0) (0, []) vs
          ((codeOf (Expr.iif c t f) 0).length, [evalE f])
        ∧ ∀ i ∈ vs, ¬ (csize c + 1 ≤ i ∧ i < csize c + 1 + csize t)) := by
  have hlen : (codeOf (Expr.iif c t f) 0).length
      = csize c + csize t + csize f + 2 := by
    simp [codeOf_length, csize]
  have hgget : (codeOf (Expr.iif c t f) 0)[csize c]?
      = some (Step.iifStep (csize c + 1 + csize t + 1)) :=
    code_get_of_eq _ (codeOf c 0)
      (codeOf t (csize c + 1)
        ++ Step.iifGate (csize c + 1 + csize t + 1 + csize f)
        :: codeOf f (csize c + 1 + csize t + 1))
      (Step.iifStep (csize c + 1 + csize t + 1)) _
      (by simp [codeOf, List.append_assoc]) (by simp [codeOf_length])
  obtain ⟨vs₁, hrun₁, hb₁⟩ := codeOf_exec c (codeOf (Expr.iif c t f) 0) []
    (Step.iifStep (csize c + 1 + csize t + 1)
      :: (codeOf t (csize c + 1)
        ++ Step.iifGate (csize c + 1 + csize t + 1 + csize f)
        :: codeOf f (csize c + 1 + csize t + 1))) []
    (by simp [codeOf, List.append_assoc])
  simp only [List.length_nil, Nat.zero_add] at hrun₁ hb₁
  constructor
  · intro hat
    have hgstep : stepOnce (codeOf (Expr.iif c t f) 0)
        (csize c, evalE c :: []) = some (csize c + 1, []) := by
      simp [stepOnce, hgget, applyStep, hat]
    have hlen₂ : (codeOf c 0
        ++ [Step.iifStep (csize c + 1 + csize t + 1)]).length
        = csize c + 1 := by
      simp [codeOf_length]
    obtain ⟨vs₂, hrun₂, hb₂⟩ := codeOf_exec t (codeOf (Expr.iif c t f) 0)
      (codeOf c 0 ++ [Step.iifStep (csize c + 1 + csize t + 1)])
      (Step.iifGate (csize c + 1 + csize t + 1 + csize f)
        :: codeOf f (csize c + 1 + csize t + 1)) []
      (by rw [hlen₂]; simp [codeOf, List.append_assoc])
    rw [hlen₂] at hrun₂ hb₂
    have hsget : (codeOf (Expr.iif c t f) 0)[csize c + 1 + csize t]?
        = some (Step.iifGate (csize c + 1 + csize t + 1 + csize f)) :=
      code_get_of_eq _
        (codeOf c 0 ++ [Step.iifStep (csize c + 1 + csize t + 1)]
          ++ codeOf t (csize c + 1))
        (codeOf f (csize c + 1 + csize t + 1))
        (Step.iifGate (csize c + 1 + csize t + 1 + csize f)) _
        (by simp [codeOf, List.append_assoc])
        (by simp [codeOf_length] <;> omega)
    have hsstep : stepOnce (codeOf (Expr.iif c t f) 0)
        (csize c + 1 + csize t, evalE t :: [])
        = some (csize c + 1 + csize t + 1 + csize f, evalE t :: []) := by
      simp [stepOnce, hsget, applyStep]
    refine ⟨vs₁ ++ ([csize c] ++ (vs₂ ++ [csize c + 1 + csize t])), ?_, ?_⟩
    · have h3 := Exec.trans hrun₂ (Exec.single hsstep)
      have h23 := Exec.trans (Exec.single hgstep) h3
      have h123 := Exec.trans hrun₁ h23
      have hfin : csize c + 1 + csize t + 1 + csize f
          = (codeOf (Expr.iif c t f) 0).length := by rw [hlen]; omega
      rw [hfin] at h123
      exact h123
    · intro i hi
      simp only [List.mem_append, List.mem_singleton] at hi
      rcases hi with h | h | h | h
      · have := hb₁ i h; omega
      · subst h; omega
      · have := hb₂ i h; omega
      · subst h; omega
  · intro hat
    have hgstep : stepOnce (codeOf (Expr.iif c t f) 0)
        (csize c, evalE c :: []) = some (csize c + 1 + csize t + 1, []) := by
      simp [stepOnce, hgget, applyStep, hat]
    have hlen₃ : (codeOf c 0
        ++ [Step.iifStep (csize c + 1 + csize t + 1)]
        ++ codeOf t (csize c + 1)
        ++ [Step.iifGate (csize c + 1 + csize t + 1 + csize f)]).length
        = csize c + 1 + csize t + 1 := by
      simp [codeOf_length] <;> omega
    obtain ⟨vs₃, hrun₃, hb₃⟩ := codeOf_exec f (codeOf (Expr.iif c t f) 0)
      (codeOf c 0 ++ [Step.iifStep (csize c + 1 + csize t + 1)]
        ++ codeOf t (csize c + 1)
        ++ [Step.iifGate (csize c + 1 + csize t + 1 + csize f)]) [] []
      (by rw [hlen₃]; simp [codeOf, List.append_assoc])
    rw [hlen₃] at hrun₃ hb₃
    refine ⟨vs₁ ++ ([csize c] ++ vs₃), ?_, ?_⟩
    · have h23 := Exec.trans (Exec.single hgstep) hrun₃
      have h123 := Exec.trans hrun₁ h23
      have hfin : csize c + 1 + csize t + 1 + csize f
          = (codeOf (Expr.iif c t f) 0).length := by rw [hlen]; omega
      rw [hfin] at h123
      exact h123
    · intro i hi
      simp only [List.mem_append, List.mem_singleton] at hi
      rcases hi with h | h | h
      · have := hb₁ i h; omega
      · subst h; omega
      · have := hb₃ i h; omega

/-- Closed instance of the ternary branch-selection theorem with a false
condition: the false branch value 3 is selected and no step of the true
branch is executed. -/
theorem exprIIF_branch_selection_witness :
    (evalE (Expr.lit Item.nil)).isTrue = false ∧
    ∃ vs, Exec (codeOf (Expr.iif (Expr.lit Item.nil)
          (Expr.lit (Item.integer 2)) (Expr.lit (Item.integer 3))) 0)
        (0, []) vs
        ((codeOf (Expr.iif (Expr.lit Item.nil)
          (Expr.lit (Item.integer 2)) (Expr.lit (Item.integer 3))) 0).length,
          [evalE (Expr.lit (Item.integer 3))])
      ∧ ∀ i ∈ vs, ¬ (csize (Expr.lit Item.nil) + 1 ≤ i
          ∧ i < csize (Expr.lit Item.nil) + 1
              + csize (Expr.lit (Item.integer 2))) :=
  ⟨rfl, (exprIIF_branch_selection (Expr.lit Item.nil)
      (Expr.lit (Item.integer 2)) (Expr.lit (Item.integer 3))).2 rfl⟩

/-- Whether every node of the tree uses the inherited Unary / Binary /
Ternary Expression precompile; the and / or / ternary-conditional nodes
override precompile and insert gate steps. -/
def gateFree : Expr → Bool
  | .lit _ => true
  | .enot a => gateFree a
  | .eeq a b => gateFree a && gateFree b
  | .eand _ _ => false
  | .eor _ _ => false
  | .iif _ _ _ => false

/-- Number of nodes of an expression tree. -/
def nodeCount : Expr → Nat
  | .lit _ => 1
  | .enot a => nodeCount a + 1
  | .eeq a b => nodeCount a + nodeCount b + 1
  | .eand a b => nodeCount a + nodeCount b + 1
  | .eor a b => nodeCount a + nodeCount b + 1
  | .iif a b c => nodeCount a + nodeCount b + nodeCount c + 1

/-- The depth-first linearization the spec describes: each node yields the
linearizations of its children, left to right (first, second, third), and
then one step of its own.  This is the claim-side reference definition,
written from the words of the spec, to be compared with codeOf. -/
def dfsLinear : Expr → List Step
  | .lit v => [.pushLit v]
  | .enot a => dfsLinear a ++ [.notStep]
  | .eeq a b => dfsLinear a ++ dfsLinear b ++ [.eeqStep]
  | .eand a b => dfsLinear a ++ dfsLinear b ++ [.andStep]
  | .eor a b => dfsLinear a ++ dfsLinear b ++ [.orStep]
  | .iif a b c => dfsLinear a ++ dfsLinear b ++ dfsLinear c ++ [.iifStep 0]

/-- C2 counterexample: for a ternary conditional node the precompiled
sequence is not the depth-first child-steps-before-parent linearization:
the node's own step is emitted directly after the first child, before the
second and third children, and a gate step is inserted, so the sequence
even has a different length than the node count of the tree. -/
theorem precompile_iif_not_dfs :
    codeOf (Expr.iif (Expr.lit (Item.integer 1)) (Expr.lit (Item.integer 2))
        (Expr.lit (Item.integer 3))) 0
      = [Step.pushLit (Item.integer 1), Step.iifStep 4,
          Step.pushLit (Item.integer 2), Step.iifGate 5,
          Step.pushLit (Item.integer 3)]
    ∧ codeOf (Expr.iif (Expr.lit (Item.integer 1)) (Expr.lit (Item.integer 2))
        (Expr.lit (Item.integer 3))) 0
      ≠ dfsLinear (Expr.iif (Expr.lit (Item.integer 1))
          (Expr.lit (Item.integer 2)) (Expr.lit (Item.integer 3)))
    ∧ (codeOf (Expr.iif (Expr.lit (Item.integer 1)) (Expr.lit (Item.integer 2))
        (Expr.lit (Item.integer 3))) 0).length
      ≠ nodeCount (Expr.iif (Expr.lit (Item.integer 1))
          (Expr.lit (Item.integer 2)) (Expr.lit (Item.integer 3))) := by
  refine ⟨rfl, ?_, ?_⟩ <;> decide

/-- C2 amended: for every expression tree all of whose nodes use the
inherited Unary / Binary / Ternary Expression precompile (no gate-bearing
override), the precompiled sequence is exactly the depth-first
linearization with the complete child sequences, left to right, before the
node's own step, independently of the emission offset. -/
theorem precompile_base_is_dfs (e : Expr) (h : gateFree e = true) :
    ∀ ofs, codeOf e ofs = dfsLinear e := by
  induction e with
  | lit v => intro ofs; simp [codeOf, dfsLinear]
  | enot a ih =>
      intro ofs
      simp only [gateFree] at h
      simp [codeOf, dfsLinear, ih h]
  | eeq a b iha ihb =>
      intro ofs
      simp only [gateFree, Bool.and_eq_true] at h
      simp [codeOf, dfsLinear, iha h.1, ihb h.2]
  | eand a b _ _ => simp [gateFree] at h
  | eor a b _ _ => simp [gateFree] at h
  | iif a b c _ _ _ => simp [gateFree] at h

/-- Closed instance of the amended linearization theorem on a gate-free
tree containing a unary, a binary and two leaf nodes, at a nonzero
offset. -/
theorem precompile_base_is_dfs_witness :
    gateFree (Expr.eeq (Expr.enot (Expr.lit Item.nil))
        (Expr.lit (Item.integer 7))) = true ∧
    codeOf (Expr.eeq (Expr.enot (Expr.lit Item.nil))
        (Expr.lit (Item.integer 7))) 5
      = dfsLinear (Expr.eeq (Expr.enot (Expr.lit Item.nil))
        (Expr.lit (Item.integer 7))) :=
  ⟨rfl, precompile_base_is_dfs (Expr.eeq (Expr.enot (Expr.lit Item.nil))
      (Expr.lit (Item.integer 7))) rfl 5⟩

/-- Observable outcome of applying an operator step to the data stack:
either an ordinary stack update, or a deferral to the Class handler of an
instance operand (the handler bodies live outside the embedded fragment,
so the call itself is the observable), or a raised error condition with
its error code and extra text. -/
inductive StepRes where
  | ok (stack : List Item) : StepRes
  | classOp (opName : String) (cls inst : Nat) (stack : List Item) : StepRes
  | raised (code : Nat) (extra : String) : StepRes
deriving DecidableEq, Repr

/-- Modelled from the spec: the numeric value of the engine error code
e_invalid_op is declared outside src/; only its identity matters here. -/
def e_invalid_op : Nat := 1

/-- Modelled from the spec: the numeric value of the engine error code
e_undef_sym is declared outside src/; only its identity matters here. -/
def e_undef_sym : Nat := 2

/-- ExprNot::apply_ over the data stack: it unconditionally replaces the
top item in place with the boolean negation of its truth value; there is
no class dispatch and no raise in the source (overloading is a TODO
comment there). -/
def exprNotApply : List Item → StepRes
  | it :: st => .ok (exprNotItem it :: st)
  | [] => .ok []

/-- Two's-complement wraparound of the int64 payload arithmetic of Items:
the source stores asInteger() in a 64-bit field, so an increment at
INT64_MAX wraps to INT64_MIN rather than growing by one. -/
def wrap64 (n : Int) : Int := (n + 2 ^ 63) % 2 ^ 64 - 2 ^ 63

/-- Fuel-driven floor base-two logarithm: the recursion halves its
argument, so any fuel at least the bit length of n yields the floor
logarithm; it is always called with the argument itself as fuel. -/
def ilog2Fuel : Nat → Nat → Nat
  | 0, _ => 0
  | fuel + 1, n => if n < 2 then 0 else ilog2Fuel fuel (n / 2) + 1

/-- Floor base-two logarithm of the absolute value of a nonzero rational,
computed from the numerator and denominator bit lengths with a final
one-step correction against the value itself. -/
def ratIlog2abs (q : Rat) : Int :=
  let n := q.num.natAbs
  let e0 : Int := (ilog2Fuel n n : Int) - (ilog2Fuel q.den q.den : Int)
  if (if 0 ≤ e0 then 2 ^ e0.toNat * q.den ≤ n else q.den ≤ n * 2 ^ (-e0).toNat)
  then e0 else e0 - 1

/-- Round-half-to-even of the fraction n / d for a positive denominator:
the tie at one half goes to the even integer. -/
def roundIntHalfEven (n : Int) (d : Nat) : Int :=
  let f := n.fdiv (d : Int)
  let r2 := 2 * (n - f * (d : Int))
  if r2 < (d : Int) then f
  else if (d : Int) < r2 then f + 1
  else if f % 2 = 0 then f else f + 1

/-- Round-half-to-even of q / 2 ^ e, carried out on the numerator and
denominator so that every step is integer arithmetic. -/
def roundAtExp (q : Rat) (e : Int) : Int :=
  if 0 ≤ e then roundIntHalfEven q.num (q.den * 2 ^ e.toNat)
  else roundIntHalfEven (q.num * ((2 ^ (-e).toNat : Nat) : Int)) q.den

/-- The rational m / 2 ^ k in lowest terms: common twos are divided out
and the remaining odd numerator is coprime to the power-of-two
denominator. -/
def pow2Div : Int → Nat → Rat
  | m, 0 => (m : Rat)
  | m, k + 1 =>
      if h : m % 2 = 0 then pow2Div (m / 2) k
      else Rat.mk' m (2 ^ (k + 1)) (pow_ne_zero (k + 1) (by norm_num))
        (by
          have hodd : Odd m := by
            rcases Int.even_or_odd m with he | ho
            · exact absurd (Int.even_iff.mp he) h
            · exact ho
          have hna : Odd m.natAbs := Int.natAbs_odd.mpr hodd
          have h2 : ¬ (2 ∣ m.natAbs) := by
            rw [Nat.odd_iff] at hna
            omega
          have hc : Nat.Coprime m.natAbs 2 :=
            Nat.coprime_comm.mp
              ((Nat.Prime.coprime_iff_not_dvd Nat.prime_two).mpr h2)
          exact hc.pow_right _)

/-- The rational m * 2 ^ e for an integer exponent. -/
def ratPow2Scaled (m : Int) (e : Int) : Rat :=
  if 0 ≤ e then ((m * ((2 ^ e.toNat : Nat) : Int) : Int) : Rat)
  else pow2Div m (-e).toNat

/-- Binary64 round-to-nearest-even on exact rationals, modelling the C
double arithmetic of the numeric payload: a nonzero value is rounded onto
the grid of spacing 2 ^ (exponent - 52), the tie going to the even
mantissa, with the spacing clamped at the subnormal limit 2 ^ (-1074);
the unit increments modelled here never reach the overflow range, which
is therefore not modelled. -/
def roundB64 (q : Rat) : Rat :=
  if q.num = 0 then 0
  else ratPow2Scaled (roundAtExp q (max (-1074) (ratIlog2abs q - 52)))
    (max (-1074) (ratIlog2abs q - 52))

/-- ExprPreInc::apply_: an integer payload is incremented in the 64-bit
integer domain (wrapping), a numeric payload is incremented in binary64
arithmetic (the exact sum rounded back onto the double grid), deep and
user instances defer to their class op_inc, every other type raises an
invalid-operand error with extra text preinc. -/
def exprPreIncApply : List Item → StepRes
  | .integer n :: st => .ok (.integer (wrap64 (n + 1)) :: st)
  | .numeric q :: st => .ok (.numeric (roundB64 (q + 1)) :: st)
  | .deepInst cls inst :: st => .classOp "op_inc" cls inst (.deepInst cls inst :: st)
  | .userInst cls inst :: st => .classOp "op_inc" cls inst (.userInst cls inst :: st)
  | _ :: _ => .raised e_invalid_op "preinc"
  | [] => .ok []

/-- ExprPreDec::apply_: an integer payload is decremented in the 64-bit
integer domain (wrapping), a numeric payload is decremented in binary64
arithmetic, deep and user instances defer to their class op_dec, every
other type raises an invalid-operand error with extra text predec. -/
def exprPreDecApply : List Item → StepRes
  | .integer n :: st => .ok (.integer (wrap64 (n - 1)) :: st)
  | .numeric q :: st => .ok (.numeric (roundB64 (q - 1)) :: st)
  | .deepInst cls inst :: st => .classOp "op_dec" cls inst (.deepInst cls inst :: st)
  | .userInst cls inst :: st => .classOp "op_dec" cls inst (.userInst cls inst :: st)
  | _ :: _ => .raised e_invalid_op "predec"
  | [] => .ok []

/-- C10: the logical-not step is total over every operand type: it never
raises, never defers to a Class handler, and replaces the top item in
place by the boolean negation of its truth value, leaving the data-stack
depth unchanged. -/
theorem exprNot_total (it : Item) (st : List Item) :
    exprNotApply (it :: st) = StepRes.ok (Item.boolean (!it.isTrue) :: st) :=
  rfl

/-- C6 counterexample: at the int64 upper bound the pre-increment wraps
to the minimum instead of changing by one, and on the numeric 2 ^ 53 the
binary64 increment is a no-op, so neither an integer nor a floating
operand always changes by exactly one. -/
theorem preIncDec_exact_one_fails :
    exprPreIncApply [Item.integer (2 ^ 63 - 1)] = .ok [Item.integer (-(2 ^ 63))]
  ∧ ((-(2 ^ 63) : Int) ≠ 2 ^ 63 - 1 + 1)
  ∧ exprPreIncApply [Item.numeric 9007199254740992]
      = .ok [Item.numeric 9007199254740992]
  ∧ ((9007199254740992 : Rat) ≠ 9007199254740992 + 1) := by
  refine ⟨by decide, by decide, ?_, by norm_num⟩
  show StepRes.ok [Item.numeric (roundB64 ((9007199254740992 : Rat) + 1))] = _
  have h1 : (9007199254740992 : Rat) + 1 = 9007199254740993 := by norm_num
  rw [h1]
  have h2 : roundB64 (9007199254740993 : Rat) = 9007199254740992 := by decide
  rw [h2]

/-- C6 (amended): pre-increment and pre-decrement keep an integer operand
integer, changing it by exactly one whenever the result fits int64 and
wrapping two's-complement at the boundary; a numeric operand stays
numeric and is replaced by the binary64 rounding of its value plus or
minus one; deep and user instance operands defer to the class op_inc /
op_dec; any other operand type raises an invalid-operand error whose
extra text is the operator symbol. -/
theorem preIncDec_wrapped_cases (it : Item) (st : List Item) :
    (∀ n : Int, it = .integer n →
        exprPreIncApply (it :: st) = .ok (.integer (wrap64 (n + 1)) :: st)
      ∧ exprPreDecApply (it :: st) = .ok (.integer (wrap64 (n - 1)) :: st)
      ∧ (-(2 ^ 63) ≤ n + 1 → n + 1 < 2 ^ 63 → wrap64 (n + 1) = n + 1)
      ∧ (-(2 ^ 63) ≤ n - 1 → n - 1 < 2 ^ 63 → wrap64 (n - 1) = n - 1))
  ∧ (∀ q : Rat, it = .numeric q →
        exprPreIncApply (it :: st) = .ok (.numeric (roundB64 (q + 1)) :: st)
      ∧ exprPreDecApply (it :: st) = .ok (.numeric (roundB64 (q - 1)) :: st))
  ∧ (∀ cls inst : Nat, (it = .deepInst cls inst ∨ it = .userInst cls inst) →
        exprPreIncApply (it :: st) = .classOp "op_inc" cls inst (it :: st)
      ∧ exprPreDecApply (it :: st) = .classOp "op_dec" cls inst (it :: st))
  ∧ ((it = .nil ∨ (∃ b, it = .boolean b)
        ∨ (∃ i, it = .func i) ∨ (∃ i, it = .method i)) →
        exprPreIncApply (it :: st) = .raised e_invalid_op "preinc"
      ∧ exprPreDecApply (it :: st) = .raised e_invalid_op "predec") := by
  refine ⟨?_, ?_, ?_, ?_⟩
  · rintro n rfl
    refine ⟨rfl, rfl, ?_, ?_⟩ <;> (intro h1 h2; unfold wrap64; omega)
  · rintro q rfl; exact ⟨rfl, rfl⟩
  · rintro cls inst (rfl | rfl) <;> exact ⟨rfl, rfl⟩
  · rintro (rfl | ⟨b, rfl⟩ | ⟨i, rfl⟩ | ⟨i, rfl⟩) <;> exact ⟨rfl, rfl⟩

/-- Closed instance of the amended pre-increment / pre-decrement theorem:
incrementing integer 5 gives 6 with no wrap, decrementing numeric 3 gives
the exactly representable 2, and a nil operand raises the invalid-operand
error with the operator symbol as extra text. -/
theorem preIncDec_wrapped_cases_witness :
    exprPreIncApply [Item.integer 5] = .ok [Item.integer 6]
  ∧ exprPreDecApply [Item.numeric 3] = .ok [Item.numeric 2]
  ∧ exprPreIncApply [Item.nil] = .raised e_invalid_op "preinc" := by
  have hi := (preIncDec_wrapped_cases (Item.integer 5) []).1 5 rfl
  have hq := (preIncDec_wrapped_cases (Item.numeric 3) []).2.1 3 rfl
  have hn := (preIncDec_wrapped_cases Item.nil []).2.2.2 (Or.inl rfl)
  refine ⟨?_, ?_, hn.1⟩
  · rw [hi.1, hi.2.2.1 (by decide) (by decide)]
    decide
  · rw [hq.2]
    have h31 : (3 : Rat) - 1 = 2 := by norm_num
    rw [h31]
    have h2 : roundB64 (2 : Rat) = 2 := by decide
    rw [h2]

/-- C4: the exact-equality step replaces its two operands by one boolean:
same-typed scalars compare by value, same-kind instance pairs compare by
identity of the instance pointer, and every pair of operands with
different type tags yields boolean false without raising. -/
theorem exprEEQ_cases (op1 op2 : Item) (st : List Item) (next : Nat) :
    applyStep Step.eeqStep next (op2 :: op1 :: st) = (next, eeqItem op1 op2 :: st)
  ∧ (∃ bres : Bool, eeqItem op1 op2 = .boolean bres)
  ∧ eeqItem Item.nil Item.nil = .boolean true
  ∧ (∀ x y : Bool, eeqItem (.boolean x) (.boolean y) = .boolean (x == y))
  ∧ (∀ x y : Int, eeqItem (.integer x) (.integer y) = .boolean (x == y))
  ∧ (∀ x y : Rat, eeqItem (.numeric x) (.numeric y) = .boolean (x == y))
  ∧ (∀ c1 i1 c2 i2 : Nat,
      eeqItem (.deepInst c1 i1) (.deepInst c2 i2) = .boolean (i1 == i2))
  ∧ (∀ c1 i1 c2 i2 : Nat,
      eeqItem (.userInst c1 i1) (.userInst c2 i2) = .boolean (i1 == i2))
  ∧ (op1.typeId ≠ op2.typeId → eeqItem op1 op2 = .boolean false) := by
  refine ⟨rfl, ?_, rfl, fun x y => rfl, fun x y => rfl, fun x y => rfl,
    fun c1 i1 c2 i2 => rfl, fun c1 i1 c2 i2 => rfl, ?_⟩
  · cases op1 <;> cases op2 <;> exact ⟨_, rfl⟩
  · intro h
    cases op1 <;> cases op2 <;> first
      | rfl
      | exact absurd rfl h

/-- Closed instance of the exact-equality case theorem: nil versus an
integer has mismatched type tags and compares to boolean false rather
than raising. -/
theorem exprEEQ_cases_witness :
    eeqItem Item.nil (Item.integer 0) = .boolean false :=
  (exprEEQ_cases Item.nil (Item.integer 0) [] 0).2.2.2.2.2.2.2.2 (by decide)

/-- The six comparison step kinds that instantiate generic_apply_ in
exprcompare.cpp: ExprLT, ExprLE, ExprGT, ExprGE, ExprEQ, ExprNE. -/
inductive CmpOp where
  | lt | le | gt | ge | eq | ne
deriving DecidableEq, Repr

/-- Modelled from the spec: exprcompare.h with the per-kind comparer
helper classes is not under src/.  passn is the numeric comparison used
when at least one operand is floating point; per the spec the integer
operand is promoted and the comparison is carried out numerically. -/
def CmpOp.passn : CmpOp → Rat → Rat → Bool
  | .lt, x, y => decide (x < y)
  | .le, x, y => decide (x ≤ y)
  | .gt, x, y => decide (x > y)
  | .ge, x, y => decide (x ≥ y)
  | .eq, x, y => x == y
  | .ne, x, y => x != y

/-- Modelled from the spec: the integer comparison of each comparer
(both operands integer, no promotion). -/
def CmpOp.passInt : CmpOp → Int → Int → Bool
  | .lt, x, y => decide (x < y)
  | .le, x, y => decide (x ≤ y)
  | .gt, x, y => decide (x > y)
  | .ge, x, y => decide (x ≥ y)
  | .eq, x, y => x == y
  | .ne, x, y => x != y

/-- Modelled from the spec: cmpCheck interprets the sign of a three-way
comparison result for each comparison kind. -/
def CmpOp.cmpCheck : CmpOp → Int → Bool
  | .lt, v => decide (v < 0)
  | .le, v => decide (v ≤ 0)
  | .gt, v => decide (v > 0)
  | .ge, v => decide (v ≥ 0)
  | .eq, v => v == 0
  | .ne, v => v != 0

/-- Three-way sign helper for the modelled default comparison. -/
def cmp3 (x y : Int) : Int := if x < y then -1 else if x = y then 0 else 1

/-- Modelled from the spec: Item::compare (item.cpp) is not under src/;
the builtin default comparison the spec mentions orders items by type tag
first and by payload within one type.  Only the inline numeric cases are
the subject of the claims proved here. -/
def Item.compare (a b : Item) : Int :=
  if a.typeId ≠ b.typeId then cmp3 (Int.ofNat a.typeId) (Int.ofNat b.typeId)
  else match a, b with
    | .nil, .nil => 0
    | .boolean x, .boolean y => cmp3 (if x then 1 else 0) (if y then 1 else 0)
    | .integer x, .integer y => cmp3 x y
    | .numeric x, .numeric y => if x < y then -1 else if x = y then 0 else 1
    | .func x, .func y => cmp3 (Int.ofNat x) (Int.ofNat y)
    | .method x, .method y => cmp3 (Int.ofNat x) (Int.ofNat y)
    | .deepInst _ x, .deepInst _ y => cmp3 (Int.ofNat x) (Int.ofNat y)
    | .userInst _ x, .userInst _ y => cmp3 (Int.ofNat x) (Int.ofNat y)
    | _, _ => 0

/-- generic_apply_ from exprcompare.cpp over the data stack, with op1 the
second item from the top and op2 the top: the four scalar numeric
pairings compare inline, write the boolean into op1 and pop op2; a deep
or user first operand defers to its class op_compare; every remaining
pairing compares with the default Item comparison, applies cmpCheck and
pops. -/
def genericCompareApply (op : CmpOp) : List Item → StepRes
  | op2 :: op1 :: st =>
    match op1, op2 with
    | .integer x, .integer y => .ok (.boolean (op.passInt x y) :: st)
    | .integer x, .numeric y => .ok (.boolean (op.passn (Int.cast x) y) :: st)
    | .numeric x, .integer y => .ok (.boolean (op.passn x (Int.cast y)) :: st)
    | .numeric x, .numeric y => .ok (.boolean (op.passn x y) :: st)
    | .deepInst cls inst, _ => .classOp "op_compare" cls inst (op2 :: op1 :: st)
    | .userInst cls inst, _ => .classOp "op_compare" cls inst (op2 :: op1 :: st)
    | _, _ => .ok (.boolean (op.cmpCheck (Item.compare op1 op2)) :: st)
  | st => .ok st

/-- C5: for every comparison kind, a mixed integer and floating pair is
compared exactly as if the integer operand had first been promoted to
floating point, the comparison is carried out numerically on the promoted
values, and a single boolean replaces the two operands. -/
theorem compare_mixed_promotes (op : CmpOp) (n : Int) (q : Rat) (st : List Item) :
    genericCompareApply op (.numeric q :: .integer n :: st)
      = genericCompareApply op (.numeric q :: .numeric (Int.cast n) :: st)
  ∧ genericCompareApply op (.integer n :: .numeric q :: st)
      = genericCompareApply op (.numeric (Int.cast n) :: .numeric q :: st)
  ∧ genericCompareApply op (.numeric q :: .integer n :: st)
      = .ok (.boolean (op.passn (Int.cast n) q) :: st)
  ∧ genericCompareApply op (.integer n :: .numeric q :: st)
      = .ok (.boolean (op.passn q (Int.cast n)) :: st) :=
  ⟨rfl, rfl, rfl, rfl⟩

/-- Pool state from pool.cpp: the single-linked free list m_head, modelled
as the list of retained object identifiers, the m_size counter the source
tracks separately, and the m_maxSize bound. -/
structure Pool where
  head : List Nat
  size : Nat
  maxSize : Nat
deriving DecidableEq, Repr

/-- Pool::release: while the current size is strictly below the bound the
object is prepended to the free list and the size incremented; otherwise
the object is destroyed immediately, reported here as the second
component. -/
def Pool.release (p : Pool) (data : Nat) : Pool × Option Nat :=
  if p.size < p.maxSize then
    ({ p with head := data :: p.head, size := p.size + 1 }, none)
  else (p, some data)

/-- Pool::get: pops the head of the free list when nonempty, decrementing
the size; an empty pool yields nothing. -/
def Pool.get (p : Pool) : Pool × Option Nat :=
  match p.head with
  | [] => (p, none)
  | h :: t => ({ p with head := t, size := p.size - 1 }, some h)

/-- Releasing a list of objects one after the other, collecting the
destroyed ones. -/
def releaseMany (p : Pool) : List Nat → Pool × List Nat
  | [] => (p, [])
  | d :: ds =>
      ((releaseMany (p.release d).1 ds).1,
        (p.release d).2.toList ++ (releaseMany (p.release d).1 ds).2)

theorem releaseMany_spec (ds : List Nat) : ∀ p : Pool,
    p.size ≤ p.maxSize → p.head.length = p.size →
      (releaseMany p ds).1.size = min (p.size + ds.length) p.maxSize
    ∧ (releaseMany p ds).2.length
        = p.size + ds.length - min (p.size + ds.length) p.maxSize
    ∧ (releaseMany p ds).1.maxSize = p.maxSize
    ∧ (releaseMany p ds).1.head.length = (releaseMany p ds).1.size := by
  induction ds with
  | nil =>
      intro p h1 h2
      refine ⟨?_, ?_, ?_, ?_⟩ <;> simp [releaseMany, h2] <;> omega
  | cons d ds ih =>
      intro p h1 h2
      by_cases hlt : p.size < p.maxSize
      · have hrec := ih { p with head := d :: p.head, size := p.size + 1 }
          (by simpa using hlt) (by simpa using h2)
        simp only [releaseMany]
        simp [Pool.release, hlt] at hrec ⊢
        refine ⟨?_, ?_, ?_, ?_⟩ <;> omega
      · have hrec := ih p h1 h2
        simp only [releaseMany]
        simp [Pool.release, hlt] at hrec ⊢
        refine ⟨?_, ?_, ?_, ?_⟩ <;> omega

/-- C7: release retains the object, prepending it and incrementing the
size, only while the size is strictly below maxSize, and destroys it
otherwise; releasing maxSize + 1 objects into an initially empty pool
leaves exactly maxSize objects retained and destroys exactly one, and a
release never pushes the size beyond maxSize. -/
theorem pool_release_bound (msz : Nat) (objs : List Nat)
    (hlen : objs.length = msz + 1) :
    (releaseMany { head := [], size := 0, maxSize := msz } objs).1.size = msz
  ∧ (releaseMany { head := [], size := 0, maxSize := msz } objs).1.head.length = msz
  ∧ (releaseMany { head := [], size := 0, maxSize := msz } objs).2.length = 1
  ∧ (∀ (q : Pool) (d : Nat), q.size ≤ q.maxSize →
        ((q.release d).1).size ≤ q.maxSize
      ∧ (q.size < q.maxSize →
          q.release d = ({ q with head := d :: q.head, size := q.size + 1 }, none))
      ∧ (¬ q.size < q.maxSize → q.release d = (q, some d))) := by
  obtain ⟨hs, hd, hm, hh⟩ := releaseMany_spec objs
    { head := [], size := 0, maxSize := msz } (by simp) (by simp)
  simp only [hlen] at hs hd
  refine ⟨?_, ?_, ?_, ?_⟩
  · rw [hs]; simp <;> omega
  · rw [hh, hs]; simp <;> omega
  · rw [hd]; simp
  · intro q d hq
    refine ⟨?_, ?_, ?_⟩
    · by_cases hlt : q.size < q.maxSize <;> simp [Pool.release, hlt] <;> omega
    · intro hlt; simp [Pool.release, hlt]
    · intro hlt; simp [Pool.release, hlt]

/-- Closed instance of the pool bound theorem: releasing three objects
into an empty pool bounded by two retains two and destroys one. -/
theorem pool_release_bound_witness :
    (releaseMany { head := [], size := 0, maxSize := 2 } [10, 11, 12]).1.size = 2
  ∧ (releaseMany { head := [], size := 0, maxSize := 2 } [10, 11, 12]).1.head.length = 2
  ∧ (releaseMany { head := [], size := 0, maxSize := 2 } [10, 11, 12]).2.length = 1
  ∧ (∀ (q : Pool) (d : Nat), q.size ≤ q.maxSize →
        ((q.release d).1).size ≤ q.maxSize
      ∧ (q.size < q.maxSize →
          q.release d = ({ q with head := d :: q.head, size := q.size + 1 }, none))
      ∧ (¬ q.size < q.maxSize → q.release d = (q, some d))) :=
  pool_release_bound 2 [10, 11, 12] rfl

/-- The variable scopes a context can resolve a name in: the local frame
bindings and the global / module slots, each mapping a name to a slot
identifier. -/
structure VarScopes where
  locals : String → Option Nat
  globals : String → Option Nat

/-- Modelled from the spec: VMContext::resolveVariable is not under src/.
Per the spec and the comment in StmtGlobal::apply_ (resolve it global),
resolving with the global flag searches the global / module scope only,
ignoring any local binding; without the flag the local scope shadows the
global one. -/
def resolveVariable (ctx : VarScopes) (name : String) (glob : Bool) : Option Nat :=
  if glob then ctx.globals name
  else match ctx.locals name with
    | some v => some v
    | none => ctx.globals name

/-- The error parameter record built by StmtGlobal::apply_ on an
unresolved name, following ErrorParam of error.h: error code, line,
module name, the current function name (symbol) and the offending
variable name (extra). -/
structure CodeErrParam where
  code : Nat
  line : Nat
  moduleName : String
  symbol : String
  extra : String
deriving DecidableEq, Repr

/-- StmtGlobal::apply_: walks the listed symbols in order; each one is
resolved in the global scope, ignoring locals, and bound; the first name
that does not resolve raises a CodeError carrying the undefined-symbol
code, the statement line, the current function module and name and the
offending symbol as extra, and no later symbol of the statement is
bound. -/
def stmtGlobalApply (ctx : VarScopes) (modName funcName : String) (line : Nat) :
    List String → List (String × Nat) × Option CodeErrParam
  | [] => ([], none)
  | s :: rest =>
    match resolveVariable ctx s true with
    | none => ([], some ⟨e_undef_sym, line, modName, funcName, s⟩)
    | some slot =>
        ((s, slot) :: (stmtGlobalApply ctx modName funcName line rest).1,
          (stmtGlobalApply ctx modName funcName line rest).2)

/-- C8: the global statement binds each listed symbol to the slot
resolved in the global scope, ignoring local bindings entirely; when
every listed name resolves no error is raised and the bound names are
exactly the listed ones; when some name does not resolve, the first such
name raises the undefined-symbol CodeError carrying the module, function
and symbol names, and only the names before it are bound. -/
theorem stmtGlobal_binds_global (ctx : VarScopes) (modName funcName : String)
    (line : Nat) (syms : List String) :
    (∀ loc : String → Option Nat,
      stmtGlobalApply ⟨loc, ctx.globals⟩ modName funcName line syms
        = stmtGlobalApply ctx modName funcName line syms)
  ∧ (∀ pr ∈ (stmtGlobalApply ctx modName funcName line syms).1,
      ctx.globals pr.1 = some pr.2)
  ∧ ((∀ s ∈ syms, (ctx.globals s).isSome) →
      (stmtGlobalApply ctx modName funcName line syms).2 = none
      ∧ (stmtGlobalApply ctx modName funcName line syms).1.map Prod.fst = syms)
  ∧ (∀ (pre : List String) (s : String) (post : List String),
      syms = pre ++ s :: post →
      (∀ x ∈ pre, (ctx.globals x).isSome) →
      ctx.globals s = none →
        (stmtGlobalApply ctx modName funcName line syms).2
          = some ⟨e_undef_sym, line, modName, funcName, s⟩
      ∧ (stmtGlobalApply ctx modName funcName line syms).1.map Prod.fst = pre) := by
  refine ⟨?_, ?_, ?_, ?_⟩
  · intro loc
    induction syms with
    | nil => rfl
    | cons s rest ih =>
        simp only [stmtGlobalApply, resolveVariable, if_pos]
        cases ctx.globals s with
        | none => rfl
        | some slot => simp [ih]
  · induction syms with
    | nil => simp [stmtGlobalApply]
    | cons s rest ih =>
        intro pr hpr
        simp only [stmtGlobalApply, resolveVariable, if_pos] at hpr
        cases hg : ctx.globals s with
        | none => rw [hg] at hpr; simp at hpr
        | some slot =>
            rw [hg] at hpr
            simp only [List.mem_cons] at hpr
            rcases hpr with h | h
            · subst h; exact hg
            · exact ih pr h
  · induction syms with
    | nil => intro _; simp [stmtGlobalApply]
    | cons s rest ih =>
        intro hall
        have hs := hall s (by simp)
        obtain ⟨slot, hslot⟩ := Option.isSome_iff_exists.1 hs
        have hrest := ih (fun x hx => hall x (by simp [hx]))
        simp [stmtGlobalApply, resolveVariable, hslot, hrest.1, hrest.2]
  · intro pre s post hsyms hpre hs
    subst hsyms
    induction pre with
    | nil => simp [stmtGlobalApply, resolveVariable, hs]
    | cons x xs ih =>
        have hx := hpre x (by simp)
        obtain ⟨slot, hslot⟩ := Option.isSome_iff_exists.1 hx
        have hrest := ih (fun y hy => hpre y (by simp [hy]))
        simp [stmtGlobalApply, resolveVariable, hslot, hrest.1, hrest.2]

/-- Closed instance of the global statement theorem: with a global scope
defining only gv, binding the list gv, missing binds gv to its global
slot and raises the undefined-symbol error for missing, with the module
and function names carried in the error. -/
theorem stmtGlobal_binds_global_witness :
    (stmtGlobalApply ⟨fun _ => some 99,
        fun s => if s = "gv" then some 7 else none⟩
      "mod" "fn" 3 ["gv", "missing"]).2
      = some ⟨e_undef_sym, 3, "mod", "fn", "missing"⟩
  ∧ (stmtGlobalApply ⟨fun _ => some 99,
        fun s => if s = "gv" then some 7 else none⟩
      "mod" "fn" 3 ["gv", "missing"]).1.map Prod.fst = ["gv"] := by
  have h := (stmtGlobal_binds_global ⟨fun _ => some 99,
      fun s => if s = "gv" then some 7 else none⟩
    "mod" "fn" 3 ["gv", "missing"]).2.2.2 ["gv"] "missing" [] rfl
    (by intro x hx; simp at hx; subst hx; simp)
    (by simp)
  exact h

/-- Tokens of the modelled serialization stream: every expression node
writes a header with its operator tag (Expression::serialize); leaf value
nodes append their payload item. -/
inductive Token where
  | tag (t : Nat) : Token
  | item (v : Item) : Token
deriving DecidableEq, Repr

/-- Serialization following expression.cpp: each node first writes its
header; UnaryExpression::serialize then writes its first child,
BinaryExpression::serialize its first then second child, and
TernaryExpression::serialize writes its third, then second, then first
child, in that order. -/
def serializeExpr : Expr → List Token
  | .lit v => [.tag 0, .item v]
  | .enot a => .tag 1 :: serializeExpr a
  | .eeq a b => .tag 2 :: (serializeExpr a ++ serializeExpr b)
  | .eand a b => .tag 3 :: (serializeExpr a ++ serializeExpr b)
  | .eor a b => .tag 4 :: (serializeExpr a ++ serializeExpr b)
  | .iif a b c => .tag 5 :: (serializeExpr c ++ serializeExpr b ++ serializeExpr a)

/-- Deserialization with fuel, following the ExprFactory dispatch on the
header tag and the per-class deserialize methods, which read children in
first, second, third order (TernaryExpression::deserialize reads m_first,
then m_second, then m_third from the stream). -/
def deserializeExpr : Nat → List Token → Option (Expr × List Token)
  | 0, _ => none
  | _ + 1, .tag 0 :: .item v :: rest => some (.lit v, rest)
  | fuel + 1, .tag 1 :: rest => do
      let (a, r) ← deserializeExpr fuel rest
      pure (.enot a, r)
  | fuel + 1, .tag 2 :: rest => do
      let (a, r1) ← deserializeExpr fuel rest
      let (b, r2) ← deserializeExpr fuel r1
      pure (.eeq a b, r2)
  | fuel + 1, .tag 3 :: rest => do
      let (a, r1) ← deserializeExpr fuel rest
      let (b, r2) ← deserializeExpr fuel r1
      pure (.eand a b, r2)
  | fuel + 1, .tag 4 :: rest => do
      let (a, r1) ← deserializeExpr fuel rest
      let (b, r2) ← deserializeExpr fuel r1
      pure (.eor a b, r2)
  | fuel + 1, .tag 5 :: rest => do
      let (a, r1) ← deserializeExpr fuel rest
      let (b, r2) ← deserializeExpr fuel r1
      let (c, r3) ← deserializeExpr fuel r2
      pure (.iif a b c, r3)
  | _, _ => none

/-- C9: the ternary serialize / deserialize round trip does not preserve
child positions: serialize writes the third child first while deserialize
assigns the first-read child to the first slot, so the first and third
children come back exchanged. -/
theorem ternary_roundtrip_swaps_children :
    deserializeExpr 8 (serializeExpr (Expr.iif (Expr.lit (Item.integer 1))
        (Expr.lit (Item.integer 2)) (Expr.lit (Item.integer 3))))
      = some (Expr.iif (Expr.lit (Item.integer 3)) (Expr.lit (Item.integer 2))
          (Expr.lit (Item.integer 1)), [])
  ∧ Expr.iif (Expr.lit (Item.integer 3)) (Expr.lit (Item.integer 2))
        (Expr.lit (Item.integer 1))
      ≠ Expr.iif (Expr.lit (Item.integer 1)) (Expr.lit (Item.integer 2))
          (Expr.lit (Item.integer 3)) := by
  constructor
  · rfl
  · decide

end Falcon
